import Mathlib

/-!
Shallow embedding of the nowallet HD-wallet engine (`src/nowallet.py`):
key-index bookkeeping, gap-limit address discovery, live-sync history
interpretation, coin selection, fee computation, canonical ordering and the
spend bookkeeping of class `Wallet`.

Monetary amounts are modelled over `ℚ`: the Python code mixes `decimal.Decimal`
balances (denominated in whole coins) with integer satoshi output values, and
`ℚ` represents both exactly.  Addresses, transaction ids and scripts are
abstracted to natural numbers through injective encodings; the external pycoin
key-derivation, serialization and signing primitives are modelled as
deterministic functions, as the spec treats them as fixed external
collaborators.
-/

namespace Nowallet

/-- Addresses are abstracted to naturals; the external key derivation is
deterministic, so an address is identified by its derivation chain and index
through the injective encoding `addrOf`. -/
abbrev Addr := Nat

/-- `Wallet._COIN = 100000000`, the satoshi-per-coin scale factor. -/
def COIN : ℚ := 100000000

/-- `Wallet._GAP_LIMIT = 20`. -/
def GAP_LIMIT : Nat := 20

/-- Modelled from the spec: the external BIP32 key derivation (pycoin /
`keys.py`, not under `src/`) is deterministic, so `get_key(i, change).address()`
is an injective function of `(change, i)`; we encode it as `2*i` for the spend
chain and `2*i+1` for the change chain. -/
def addrOf (change : Bool) (i : Nat) : Addr :=
  2 * i + (if change then 1 else 0)

/-- Modelled from the spec: `standard_tx_out_script(address)` (external pycoin
primitive) produces the locking script of an address; modelled as the injective
singleton encoding. -/
def scriptOf (a : Addr) : List Nat := [a]

/-- Modelled from the spec: recovering the owning address from a locking
script (pycoin `Spendable.address`); inverse of `scriptOf`. -/
def addrOfScript (s : List Nat) : Addr := s.headD 0

/-- A pycoin `Spendable` as used by the wallet: `(tx_hash, tx_out_index,
owning address, coin_value, locking script)`. -/
structure Utxo where
  tx_hash : Nat
  tx_out_index : Nat
  address : Addr
  coin_value : ℚ
  script : List Nat
deriving DecidableEq, Repr

/-- The all-zero `Utxo`, used as the default for partial list accesses. -/
def defaultUtxo : Utxo := ⟨0, 0, 0, 0, []⟩

/-- A pycoin `TxOut`: a value and a locking script. -/
structure TxOut where
  coin_value : ℚ
  script : List Nat
deriving DecidableEq, Repr

/-- A pycoin `TxIn` as produced by `Spendable.tx_in()`: the serialized input
reference `(tx_hash, tx_out_index)`. -/
structure TxIn where
  tx_hash : Nat
  tx_out_index : Nat
deriving DecidableEq, Repr

/-- A pycoin `Tx` as assembled by `Wallet.mktx`: version, inputs, outputs and
the attached unspents (`tx.set_unspents`). -/
structure Tx where
  version : Nat
  txs_in : List TxIn
  txs_out : List TxOut
  unspents : List Utxo
deriving DecidableEq, Repr

/-- The Electrum server boundary (`Connection.listen_RPC`): each RPC method the
wallet consumes, as a pure response function.  `getHistory` returns the list of
tx hashes with history for an address, `getBalance` the confirmed balance in
satoshi, `listUnspent` the unspent outputs of an address, `estimatefee` the
coin-per-kilobyte rate for a confirmation target. -/
structure Server where
  getHistory : Addr → List Nat
  getBalance : Addr → ℚ
  listUnspent : Addr → List Utxo
  estimatefee : Nat → ℚ

/-- The mutable state of `Wallet` (= the spec's LedgerState): balance in whole
coins, the two used/unused index tables, the UTXO list and the per-address
history (an insertion-ordered association list of tx-hash lists, modelling the
Python dict). -/
structure Wallet where
  balance : ℚ
  spend_indicies : List Bool
  change_indicies : List Bool
  utxos : List Utxo
  history : List (Addr × List Nat)
deriving DecidableEq, Repr

/-- The freshly constructed wallet: zero balance, empty tables, no tx info. -/
def initWallet : Wallet :=
  { balance := 0, spend_indicies := [], change_indicies := [],
    utxos := [], history := [] }

/-- `self.change_indicies if change else self.spend_indicies`. -/
def Wallet.indicies (w : Wallet) (change : Bool) : List Bool :=
  if change then w.change_indicies else w.spend_indicies

/-- Write back the selected index table. -/
def Wallet.setIndicies (w : Wallet) (change : Bool) (t : List Bool) : Wallet :=
  if change then { w with change_indicies := t } else { w with spend_indicies := t }

/-- Dict lookup `self.history[a]` (as an option). -/
def histLookup (h : List (Addr × List Nat)) (a : Addr) : Option (List Nat) :=
  (h.find? (fun p => p.1 = a)).map (fun p => p.2)

/-- Dict assignment `self.history[a] = txs`: replace in place if the key is
present, otherwise insert at the end (Python dicts preserve insertion order). -/
def histSet (h : List (Addr × List Nat)) (a : Addr) (txs : List Nat) :
    List (Addr × List Nat) :=
  if h.any (fun p => p.1 = a) then
    h.map (fun p => if p.1 = a then (a, txs) else p)
  else h ++ [(a, txs)]

/-- `self.history[a].extend(txs)` when present, else `self.history[a] = txs`. -/
def histExtend (h : List (Addr × List Nat)) (a : Addr) (txs : List Nat) :
    List (Addr × List Nat) :=
  match histLookup h a with
  | some old => histSet h a (old ++ txs)
  | none => h ++ [(a, txs)]

/-- `Wallet.get_key(index, change)`: the external derivation always yields the
same key for `(change, index)`, so a key handle is just that pair. -/
def get_key (change : Bool) (index : Nat) : Bool × Nat := (change, index)

/-- The enumerate-and-return-first-unused loop of `Wallet.get_next_unused_key`:
index of the first `False` entry, `none` when the loop falls through. -/
def firstUnused : List Bool → Option Nat
  | [] => none
  | b :: rest => if b then (firstUnused rest).map (· + 1) else some 0

/-- `Wallet.get_next_unused_key(change)`: returns the key at the first unused
index, or `none` (Python's implicit `None`) when every entry is used. -/
def get_next_unused_key (w : Wallet) (change : Bool) : Option (Bool × Nat) :=
  (firstUnused (w.indicies change)).map (fun i => get_key change i)

/-- `Wallet.get_all_known_addresses(change)`: the addresses of every index of
the chosen chain's table. -/
def get_all_known_addresses (w : Wallet) (change : Bool) : List Addr :=
  (List.range (w.indicies change).length).map (fun i => addrOf change i)

/-- The subscription list of `Wallet.listen_to_addresses`: the code calls
`get_all_known_addresses()` with its default argument `change=False`. -/
def subscribeAddresses (w : Wallet) : List Addr :=
  get_all_known_addresses w false

/-- `Wallet._interpret_history(histories, change)`: walk one window of history
responses in order.  A non-empty response is attributed to the address at index
`len(indicies)` of the chain: its tx hashes are stored in the history dict, the
server-confirmed balance of the address (divided by `_COIN`) is added to the
balance, its unspent outputs are appended to the UTXO list, and `True` is
appended to the index table; an empty response just appends `False`.  Returns
the updated wallet and the `is_empty` flag (true iff every response was
empty). -/
def interpretHistory (srv : Server) (change : Bool) (w : Wallet) :
    List (List Nat) → Wallet × Bool
  | [] => (w, true)
  | h :: rest =>
    if h.isEmpty then
      interpretHistory srv change (w.setIndicies change (w.indicies change ++ [false])) rest
    else
      let a := addrOf change (w.indicies change).length
      let w1 : Wallet :=
        { w with
          history := histSet w.history a h
          balance := w.balance + srv.getBalance a / COIN
          utxos := w.utxos ++ srv.listUnspent a }
      let w2 := w1.setIndicies change (w1.indicies change ++ [true])
      ((interpretHistory srv change w2 rest).1, false)

/-- `Wallet.discover_keys(change)`: gap-limit scan.  Each round fetches the
history of the `GAP_LIMIT` addresses at indices `[current, current+GAP_LIMIT)`,
interprets the window, and stops when the whole window was empty, otherwise
advances `current` by `GAP_LIMIT`.  The Python `while` loop is given explicit
fuel; `none` models non-termination within the allotted rounds. -/
def discoverKeys (srv : Server) (change : Bool) :
    Nat → Nat → Wallet → Option Wallet
  | 0, _, _ => none
  | fuel + 1, current, w =>
    let histories :=
      (List.range GAP_LIMIT).map (fun k => srv.getHistory (addrOf change (current + k)))
    let r := interpretHistory srv change w histories
    if r.2 then some r.1 else discoverKeys srv change fuel (current + GAP_LIMIT) r.1

/-- The index-table update loop at the end of `Wallet._interpret_new_history`:
flip the first entry whose address matches to `True`; when no entry matches
(the for-else branch), append a single `True` at the end of the table. -/
def markUsed (change : Bool) (a : Addr) (tbl : List Bool) : List Bool :=
  match (List.range tbl.length).find? (fun i => addrOf change i = a) with
  | some i => tbl.set i true
  | none => tbl ++ [true]

/-- `Wallet._interpret_new_history(address, history, change)`: on a truthy
history entry, append its tx hash to the address's history (inserting the
address if new), add the address's confirmed balance over `_COIN`, extend the
UTXO list with the address's unspents, and mark the address used via the
enumerate/for-else loop.  Returns the wallet and the `is_empty` flag. -/
def interpretNewHistory (srv : Server) (a : Addr) (entry : Option Nat)
    (change : Bool) (w : Wallet) : Wallet × Bool :=
  match entry with
  | none => (w, true)
  | some txid =>
    let w1 : Wallet :=
      { w with
        history := histExtend w.history a [txid]
        balance := w.balance + srv.getBalance a / COIN
        utxos := w.utxos ++ srv.listUnspent a }
    (w1.setIndicies change (markUsed change a (w1.indicies change)), false)

/-- `Wallet.dispatch_result(result)`: refetch the address's history and feed
its first entry to `_interpret_new_history` with the default `change=False`;
`none` models the `IndexError` of `history[0]` on an empty refetch. -/
def dispatchResult (srv : Server) (a : Addr) (w : Wallet) : Option (Wallet × Bool) :=
  match srv.getHistory a with
  | [] => none
  | t :: _ => some (interpretNewHistory srv a (some t) false w)

/-- Modelled from the spec: the external pycoin serializer (`tx.stream`)
produces a byte string whose length is a deterministic function of the
transaction; we use the classic per-input/per-output size estimate. -/
def txSize (t : Tx) : Nat :=
  10 + 148 * t.txs_in.length + 34 * t.txs_out.length

/-- Python's `int(q)` on an exact quantity: truncation toward zero. -/
def pyInt (q : ℚ) : Int := q.num.tdiv (q.den : Int)

/-- `Wallet.get_fee(tx)`: serialized byte length over 1024, times the
server-estimated coin-per-kilobyte rate for a 6-block target, times `_COIN`,
truncated by `int(...)`. -/
def get_fee (srv : Server) (t : Tx) : Int :=
  pyInt ((txSize t : ℚ) / 1024 * srv.estimatefee 6 * COIN)

/-- Follows the spec's words (for comparison with `get_fee`): `fee =
serialized_size_in_kb * fee_per_kb`, truncated to the smallest currency
unit, i.e. the floor of the satoshi-denominated product. -/
def specFee (sizeBytes : Nat) (feePerKb : ℚ) : Int :=
  Int.floor ((sizeBytes : ℚ) / 1024 * feePerKb * COIN)

/-- Modelled from the spec: `LexSpendable` of `subclasses.py` (not under
`src/`) compares spendables lexicographically on the serialized input
reference `(tx_hash, tx_out_index)`. -/
def lexSpendableLE (a b : Utxo) : Bool :=
  decide (a.tx_hash < b.tx_hash) ||
    (decide (a.tx_hash = b.tx_hash) && decide (a.tx_out_index ≤ b.tx_out_index))

/-- Strict lexicographic comparison of script byte lists. -/
def listNatLT : List Nat → List Nat → Bool
  | _, [] => false
  | [], _ :: _ => true
  | a :: as, b :: bs => decide (a < b) || (decide (a = b) && listNatLT as bs)

/-- Modelled from the spec: `LexTxOut` of `subclasses.py` (not under `src/`)
compares outputs lexicographically on (locking script, value). -/
def lexTxOutLE (a b : TxOut) : Bool :=
  listNatLT a.script b.script ||
    (decide (a.script = b.script) && decide (a.coin_value ≤ b.coin_value))

/-- The coin-selection loop body of `Wallet.mktx`: append the UTXO and add its
value while the running total is still below the requested amount. -/
def selectStep (amount : ℚ) (acc : List Utxo × ℚ) (u : Utxo) : List Utxo × ℚ :=
  if acc.2 < amount then (acc.1 ++ [u], acc.2 + u.coin_value) else acc

/-- The coin-selection loop of `Wallet.mktx`: fold `selectStep` over the UTXO
list in storage order, starting from the empty selection. -/
def selectCoins (utxos : List Utxo) (amount : ℚ) : List Utxo × ℚ :=
  utxos.foldl (selectStep amount) ([], 0)

/-- The wif-collection loop of `Wallet.mktx`: for `change in (True, False)`,
every key of the chain's table whose address is among the input addresses. -/
def wifsFor (w : Wallet) (in_addrs : List Addr) : List (Bool × Nat) :=
  ((List.range w.change_indicies.length).filter
      (fun i => in_addrs.contains (addrOf true i))).map (fun i => get_key true i) ++
    ((List.range w.spend_indicies.length).filter
      (fun i => in_addrs.contains (addrOf false i))).map (fun i => get_key false i)

/-- The transaction-construction failures of `Wallet.mktx`: the pycoin
`ValueError` of `distribute_from_split_pool` when the inputs cannot cover
outputs plus fee (the spec's `InsufficientFunds`), and the `AttributeError` on
`get_next_unused_key(change=True)` returning `None`. -/
inductive TxErr
  | insufficientFunds
  | noChangeKey
deriving DecidableEq, Repr

/-- Modelled from the spec: pycoin's `distribute_from_split_pool(tx, fee)`
(external library) assigns the remaining input value — total unspents minus
already-allocated outputs minus the fee — to the zero-valued change output(s),
and fails (`InsufficientFunds`) when that remainder is negative. -/
def distributeFromSplitPool (t : Tx) (fee : Int) : Except TxErr Tx :=
  let totalIn : ℚ := (t.unspents.map Utxo.coin_value).sum
  let allocated : ℚ := (t.txs_out.map TxOut.coin_value).sum + fee
  let remaining := totalIn - allocated
  if remaining < 0 then .error .insufficientFunds
  else
    let zeroCount : ℚ := ((t.txs_out.filter (fun o => o.coin_value = 0)).length : ℚ)
    .ok { t with
          txs_out := t.txs_out.map
            (fun o => if o.coin_value = 0 then { o with coin_value := remaining / zeroCount } else o) }

/-- Modelled from the spec: the external signing primitive (`sign_tx`) returns
the assembled transaction completed with signatures; the signature bytes
themselves are outside the model. -/
def signTx (t : Tx) (_wifs : List (Bool × Nat)) : Tx := t

/-- The inputs, outputs and unspents assembled by `Wallet.mktx` before fee
distribution, given the selected spendables and the change address: inputs are
the `LexSpendable`-sorted spendables, outputs the destination (scaled amount)
and zero-valued change outputs in `LexTxOut` order. -/
def builtTx (spendables : List Utxo) (out_addr change_addr : Addr) (amount : ℚ) : Tx :=
  let sortedSpendables := spendables.mergeSort lexSpendableLE
  let txs_in := sortedSpendables.map (fun u => TxIn.mk u.tx_hash u.tx_out_index)
  let outs := [TxOut.mk amount (scriptOf out_addr), TxOut.mk 0 (scriptOf change_addr)]
  { version := 1, txs_in := txs_in,
    txs_out := outs.mergeSort lexTxOutLE,
    unspents := sortedSpendables }

/-- `Wallet.mktx(out_addr, amount)`: scale the amount by `_COIN`, greedily
select spendables, derive the change address from the next unused change key,
assemble the canonically ordered transaction, compute the fee, distribute it
from the split pool and sign.  Errors surface before `sign_tx` is reached. -/
def mktx (srv : Server) (w : Wallet) (out_addr : Addr) (amount0 : ℚ) :
    Except TxErr Tx :=
  let amount := amount0 * COIN
  let sel := selectCoins w.utxos amount
  let in_addrs := sel.1.map Utxo.address
  match get_next_unused_key w true with
  | none => .error .noChangeKey
  | some ck =>
    let change_addr := addrOf ck.1 ck.2
    let t := builtTx sel.1 out_addr change_addr amount
    let fee := get_fee srv t
    match distributeFromSplitPool t fee with
    | .error e => .error e
    | .ok t1 => .ok (signTx t1 (wifsFor w in_addrs))

/-- Modelled from the spec: the external transaction hash (`tx.hash()`), a
deterministic function of the transaction. -/
def txHash (t : Tx) : Nat :=
  1 + t.txs_in.length + 2 * t.txs_out.length

/-- pycoin's `tx.tx_outs_as_spendable()`: each output as a spendable of this
transaction, indexed by output position. -/
def txOutsAsSpendable (t : Tx) : List Utxo :=
  t.txs_out.enum.map
    (fun p => ⟨txHash t, p.1, addrOfScript p.2.script, p.2.coin_value, p.2.script⟩)

/-- `Wallet.spend(address, amount)`: build the transaction via `mktx`
(propagating its failure), then optimistically fold it into the ledger —
append the tx to the destination's history, decrement the balance by the
(unscaled) amount and append the last output of the built transaction as a new
UTXO. -/
def spend (srv : Server) (w : Wallet) (address : Addr) (amount : ℚ) :
    Option Wallet :=
  match mktx srv w address amount with
  | .error _ => none
  | .ok tx =>
    some { w with
           history := histExtend w.history address [txHash tx]
           balance := w.balance - amount
           utxos := w.utxos ++ [(txOutsAsSpendable tx).getLastD defaultUtxo] }

/-- One ledger-mutating operation: a discovery window (`_interpret_history`
applied to a window of history responses), a live-sync notification
(`dispatch_result`/`_interpret_new_history` on one address), or a spend. -/
inductive Event
  | discover (change : Bool) (histories : List (List Nat))
  | notify (change : Bool) (a : Addr) (entry : Option Nat)
  | spendTx (dest : Addr) (amount : ℚ)

/-- Whether an event is a spend. -/
def Event.isSpendTx : Event → Bool
  | .spendTx _ _ => true
  | _ => false

/-- Apply one event to the wallet state (a failed spend leaves it unchanged,
matching the exception propagating before any bookkeeping). -/
def stepEvent (srv : Server) (w : Wallet) : Event → Wallet
  | .discover c hs => (interpretHistory srv c w hs).1
  | .notify c a e => (interpretNewHistory srv a e c w).1
  | .spendTx d amt => (spend srv w d amt).getD w

/-- Run a sequence of events from a starting wallet. -/
def runEvents (srv : Server) (w : Wallet) (evs : List Event) : Wallet :=
  evs.foldl (stepEvent srv) w

/-- The balance invariant of the spec: the balance (in whole coins) is the sum
of the values of the UTXO set (in satoshi) divided by `_COIN`. -/
def BalanceInv (w : Wallet) : Prop :=
  w.balance = (w.utxos.map Utxo.coin_value).sum / COIN

instance (w : Wallet) : Decidable (BalanceInv w) := by
  unfold BalanceInv; infer_instance

/-- Server consistency: the confirmed balance an address reports equals the
sum of the values of its reported unspent outputs. -/
def ServerConsistent (srv : Server) : Prop :=
  ∀ a, srv.getBalance a = ((srv.listUnspent a).map Utxo.coin_value).sum

/-! ### Basic structural lemmas -/

theorem addrOf_inj (c : Bool) {i j : Nat} (h : addrOf c i = addrOf c j) : i = j := by
  cases c <;> simpa [addrOf] using h

theorem setIndicies_balance (w : Wallet) (c : Bool) (t : List Bool) :
    (w.setIndicies c t).balance = w.balance := by
  cases c <;> simp [Wallet.setIndicies]

theorem setIndicies_utxos (w : Wallet) (c : Bool) (t : List Bool) :
    (w.setIndicies c t).utxos = w.utxos := by
  cases c <;> simp [Wallet.setIndicies]

theorem setIndicies_history (w : Wallet) (c : Bool) (t : List Bool) :
    (w.setIndicies c t).history = w.history := by
  cases c <;> simp [Wallet.setIndicies]

theorem setIndicies_indicies (w : Wallet) (c : Bool) (t : List Bool) :
    (w.setIndicies c t).indicies c = t := by
  cases c <;> simp [Wallet.setIndicies, Wallet.indicies]

/-! ### The is_empty flag of a discovery window -/

theorem interpretHistory_isEmpty_iff (srv : Server) (c : Bool) (hs : List (List Nat))
    (w : Wallet) : (interpretHistory srv c w hs).2 = true ↔ ∀ h ∈ hs, h = [] := by
  induction hs generalizing w with
  | nil => simp [interpretHistory]
  | cons h rest ih =>
    cases h with
    | nil => simpa [interpretHistory] using ih _
    | cons x xs => simp [interpretHistory]

/-- The synthetic server of the spec's gap-termination scenario: only the
spend-chain addresses at derivation indices 2 and 5 have history. -/
def srvGap : Server :=
  { getHistory := fun a => if a = addrOf false 2 then [100]
      else if a = addrOf false 5 then [101] else []
    getBalance := fun _ => 0
    listUnspent := fun _ => []
    estimatefee := fun _ => 0 }

/-! ### Coin selection lemmas -/

theorem selectFold_frozen (amt : ℚ) (us : List Utxo) :
    ∀ acc : List Utxo × ℚ, ¬ acc.2 < amt → us.foldl (selectStep amt) acc = acc := by
  induction us with
  | nil => intro acc _; rfl
  | cons u rest ih =>
    intro acc h
    have : selectStep amt acc u = acc := by simp [selectStep, h]
    simp only [List.foldl_cons, this]
    exact ih acc h

theorem selectFold_take (amt : ℚ) (us : List Utxo) :
    ∀ acc : List Utxo × ℚ, ∃ k, (us.foldl (selectStep amt) acc).1 = acc.1 ++ us.take k := by
  induction us with
  | nil => intro acc; exact ⟨0, by simp⟩
  | cons u rest ih =>
    intro acc
    by_cases h : acc.2 < amt
    · obtain ⟨k, hk⟩ := ih (acc.1 ++ [u], acc.2 + u.coin_value)
      refine ⟨k + 1, ?_⟩
      simp only [List.foldl_cons, selectStep, if_pos h]
      simpa [List.append_assoc] using hk
    · refine ⟨0, ?_⟩
      rw [selectFold_frozen amt (u :: rest) acc h]
      simp

theorem selectFold_sum (amt : ℚ) (us : List Utxo) :
    ∀ acc : List Utxo × ℚ, acc.2 = (acc.1.map Utxo.coin_value).sum →
      (us.foldl (selectStep amt) acc).2 =
        (((us.foldl (selectStep amt) acc).1.map Utxo.coin_value)).sum := by
  induction us with
  | nil => intro acc h; simpa using h
  | cons u rest ih =>
    intro acc h
    by_cases hlt : acc.2 < amt
    · simp only [List.foldl_cons, selectStep, if_pos hlt]
      exact ih _ (by simp [h])
    · simp only [List.foldl_cons, selectStep, if_neg hlt]
      exact ih _ h

theorem selectFold_exhaust (amt : ℚ) (us : List Utxo) :
    ∀ acc : List Utxo × ℚ, (us.foldl (selectStep amt) acc).2 < amt →
      us.foldl (selectStep amt) acc =
        (acc.1 ++ us, acc.2 + (us.map Utxo.coin_value).sum) := by
  induction us with
  | nil => intro acc _; simp
  | cons u rest ih =>
    intro acc hfin
    by_cases h : acc.2 < amt
    · have step : selectStep amt acc u = (acc.1 ++ [u], acc.2 + u.coin_value) := by
        simp [selectStep, h]
      simp only [List.foldl_cons, step] at hfin ⊢
      rw [ih _ hfin]
      simp [add_assoc]
    · exfalso
      rw [selectFold_frozen amt (u :: rest) acc h] at hfin
      exact h hfin

theorem selectFold_bounded (amt : ℚ) (us : List Utxo) :
    ∀ acc : List Utxo × ℚ, (∀ u ∈ us, 0 ≤ u.coin_value) →
      (us.foldl (selectStep amt) acc).2 ≤ acc.2 + (us.map Utxo.coin_value).sum := by
  induction us with
  | nil => intro acc _; simp
  | cons u rest ih =>
    intro acc hnn
    by_cases h : acc.2 < amt
    · have step : selectStep amt acc u = (acc.1 ++ [u], acc.2 + u.coin_value) := by
        simp [selectStep, h]
      simp only [List.foldl_cons, step]
      calc (rest.foldl (selectStep amt) (acc.1 ++ [u], acc.2 + u.coin_value)).2
          ≤ acc.2 + u.coin_value + (rest.map Utxo.coin_value).sum :=
            ih _ (fun v hv => hnn v (List.mem_cons_of_mem _ hv))
        _ = acc.2 + (((u :: rest).map Utxo.coin_value)).sum := by
            simp [add_assoc]
    · rw [selectFold_frozen amt (u :: rest) acc h]
      have h0 : (0 : ℚ) ≤ u.coin_value := hnn u (List.mem_cons_self _ _)
      have hrest : (0 : ℚ) ≤ (((rest).map Utxo.coin_value)).sum :=
        List.sum_nonneg (by
          intro x hx
          obtain ⟨v, hv, rfl⟩ := List.mem_map.mp hx
          exact hnn v (List.mem_cons_of_mem _ hv))
      simp only [List.map_cons, List.sum_cons]
      linarith

theorem selectCoins_sum (us : List Utxo) (amt : ℚ) :
    (selectCoins us amt).2 = ((selectCoins us amt).1.map Utxo.coin_value).sum :=
  selectFold_sum amt us ([], 0) (by simp)

theorem selectCoins_exhaust (us : List Utxo) (amt : ℚ)
    (h : (selectCoins us amt).2 < amt) :
    selectCoins us amt = (us, (us.map Utxo.coin_value).sum) := by
  have := selectFold_exhaust amt us ([], 0) h
  simpa [selectCoins] using this

theorem selectCoins_bounded (us : List Utxo) (amt : ℚ)
    (hnn : ∀ u ∈ us, 0 ≤ u.coin_value) :
    (selectCoins us amt).2 ≤ (us.map Utxo.coin_value).sum := by
  have := selectFold_bounded amt us ([], 0) hnn
  simpa [selectCoins] using this

/-- Concrete UTXO of value 3 for the coin-selection scenario. -/
def cu3 : Utxo := ⟨1, 0, 0, 3, [0]⟩

/-- Concrete UTXO of value 5 for the coin-selection scenario. -/
def cu5 : Utxo := ⟨2, 0, 0, 5, [0]⟩

/-- Concrete UTXO of value 2 for the coin-selection scenario. -/
def cu2 : Utxo := ⟨3, 0, 0, 2, [0]⟩

/-! ### First-unused-key lemmas -/

theorem firstUnused_eq_none (l : List Bool) (h : ∀ b ∈ l, b = true) :
    firstUnused l = none := by
  induction l with
  | nil => rfl
  | cons b rest ih =>
    have hb : b = true := h b (List.mem_cons_self _ _)
    have := ih (fun b' hb' => h b' (List.mem_cons_of_mem _ hb'))
    simp [firstUnused, hb, this]

theorem firstUnused_eq_some (l : List Bool) :
    ∀ i : Nat, l.getD i true = false → (∀ j, j < i → l.getD j true = true) →
      firstUnused l = some i := by
  induction l with
  | nil => intro i h1 _; simp [List.getD] at h1
  | cons b rest ih =>
    intro i h1 h2
    cases i with
    | zero =>
      have hb : b = false := by simpa using h1
      simp [firstUnused, hb]
    | succ i' =>
      have hb : b = true := by simpa using h2 0 (Nat.succ_pos _)
      have h1' : rest.getD i' true = false := by simpa using h1
      have h2' : ∀ j, j < i' → rest.getD j true = true := by
        intro j hj
        simpa using h2 (j + 1) (Nat.succ_lt_succ hj)
      simp [firstUnused, hb, ih i' h1' h2']

/-- A wallet whose whole spend-chain index table is used. -/
def allUsedWallet : Wallet :=
  { balance := 0, spend_indicies := [true], change_indicies := [],
    utxos := [], history := [] }

/-! ### Claim C2: gap-limit discovery -/

/-- C2: each discovery round scans a window of exactly `GAP_LIMIT = 20`
consecutive indices and `_interpret_history` reports the window empty exactly
when every one of its history responses is empty — which is the loop's sole
termination condition — and on the synthetic server with history only at
spend indices 2 and 5, discovery halts with a 40-entry index table that is
true exactly at indices 2 and 5. -/
theorem discovery_gap_scan :
    (∀ (srv : Server) (c : Bool) (hs : List (List Nat)) (w : Wallet),
        ((interpretHistory srv c w hs).2 = true ↔ ∀ h ∈ hs, h = [])) ∧
      (∀ (srv : Server) (c : Bool) (current : Nat),
        ((List.range GAP_LIMIT).map
          (fun k => srv.getHistory (addrOf c (current + k)))).length = 20) ∧
      (discoverKeys srvGap false 3 0 initWallet).map Wallet.spend_indicies =
        some ((List.range 40).map fun i => decide (i = 2 ∨ i = 5)) :=
  ⟨fun srv c hs w => interpretHistory_isEmpty_iff srv c hs w,
   fun _ _ _ => by simp [GAP_LIMIT],
   by with_unfolding_all decide⟩

/-- Witness for C2: the termination criterion applied to a concrete fully
empty window. -/
theorem discovery_gap_scan_witness :
    (interpretHistory srvGap false initWallet [[], []]).2 = true :=
  (discovery_gap_scan.1 srvGap false [[], []] initWallet).mpr (by decide)

/-! ### Claim C3: next unused key -/

/-- C3 counterexample: on a wallet whose spend-chain table is all used, the
claim demands the key one past the end of the table (`some (get_key false 1)`),
but `get_next_unused_key` falls through Python's for-loop and returns `None`. -/
theorem next_unused_key_all_used_counterexample :
    get_next_unused_key allUsedWallet false = none := by decide

/-- C3 (amended): `get_next_unused_key` returns the key at the first index
whose IndexTable entry is false; when every entry in the chain's table is true
it returns no key at all (Python's implicit `None`), rather than the key one
past the end of the table. -/
theorem next_unused_key_spec :
    ∀ (w : Wallet) (c : Bool),
      ((∀ b ∈ w.indicies c, b = true) → get_next_unused_key w c = none) ∧
        (∀ i, (w.indicies c).getD i true = false →
          (∀ j, j < i → (w.indicies c).getD j true = true) →
          get_next_unused_key w c = some (get_key c i)) := by
  intro w c
  constructor
  · intro h
    simp [get_next_unused_key, firstUnused_eq_none _ h]
  · intro i h1 h2
    simp [get_next_unused_key, firstUnused_eq_some _ i h1 h2]

/-- Witness for C3: the table `[true, false]` yields the key at index 1. -/
theorem next_unused_key_spec_witness :
    get_next_unused_key
      { balance := 0, spend_indicies := [true, false], change_indicies := [],
        utxos := [], history := [] } false = some (get_key false 1) :=
  (next_unused_key_spec _ false).2 1 (by decide) (by decide)

/-! ### Claim C4: coin selection -/

/-- C4: coin selection always returns a prefix of the UTXO list in its storage
order (it never reorders or skips), its running total is the sum of the
selected values, adding stops as soon as the accumulated value reaches the
requested amount (the remaining fold is frozen), and on stored values
`[3, 5, 2]` with target 6 it selects the UTXOs valued `[3, 5]`, with
accumulated value 8. -/
theorem coin_selection_greedy :
    (∀ (us : List Utxo) (amt : ℚ), ∃ k, (selectCoins us amt).1 = us.take k) ∧
      (∀ (us : List Utxo) (amt : ℚ),
        (selectCoins us amt).2 = ((selectCoins us amt).1.map Utxo.coin_value).sum) ∧
      (∀ (us : List Utxo) (amt : ℚ) (acc : List Utxo × ℚ), ¬ acc.2 < amt →
        us.foldl (selectStep amt) acc = acc) ∧
      (selectCoins [cu3, cu5, cu2] 6).1 = [cu3, cu5] ∧
      (selectCoins [cu3, cu5, cu2] 6).2 = 8 :=
  ⟨fun us amt => by simpa [selectCoins] using selectFold_take amt us ([], 0),
   selectCoins_sum,
   fun us amt acc h => selectFold_frozen amt us acc h,
   by with_unfolding_all decide, by with_unfolding_all decide⟩

/-- Witness for C4: the frozen-fold component applied at a concrete
already-satisfied accumulator. -/
theorem coin_selection_greedy_witness :
    [cu2].foldl (selectStep 6) ([cu3, cu5], 8) = ([cu3, cu5], 8) :=
  coin_selection_greedy.2.2.1 [cu2] 6 ([cu3, cu5], 8) (by with_unfolding_all decide)

/-! ### Claim C1: balance vs UTXO sum -/

theorem interpretHistory_balanceInv (srv : Server) (hc : ServerConsistent srv)
    (c : Bool) (hs : List (List Nat)) (w : Wallet) (hw : BalanceInv w) :
    BalanceInv (interpretHistory srv c w hs).1 := by
  induction hs generalizing w with
  | nil => exact hw
  | cons h rest ih =>
    cases h with
    | nil =>
      simp only [interpretHistory, List.isEmpty_nil, if_true]
      apply ih
      rw [BalanceInv, setIndicies_balance, setIndicies_utxos]
      exact hw
    | cons x xs =>
      simp only [interpretHistory, List.isEmpty_cons, Bool.false_eq_true, if_false]
      apply ih
      rw [BalanceInv, setIndicies_balance, setIndicies_utxos]
      simp only [List.map_append, List.sum_append]
      rw [hw, hc (addrOf c (w.indicies c).length), add_div]

theorem interpretNewHistory_balanceInv (srv : Server) (hc : ServerConsistent srv)
    (a : Addr) (entry : Option Nat) (c : Bool) (w : Wallet) (hw : BalanceInv w) :
    BalanceInv (interpretNewHistory srv a entry c w).1 := by
  cases entry with
  | none => exact hw
  | some txid =>
    simp only [interpretNewHistory]
    rw [BalanceInv, setIndicies_balance, setIndicies_utxos]
    simp only [List.map_append, List.sum_append]
    rw [hw, hc a, add_div]

/-- C1 (amended): for every LedgerState reachable from a balance-consistent
state by any sequence of discovery and live-sync operations — but not spends —
against a server whose per-address confirmed balances agree with its unspent
listings, the balance equals the sum of the values of the UTXO set (scaled by
`_COIN`, since the code keeps the balance in whole coins and UTXO values in
satoshi). -/
theorem balance_tracks_utxo_sum_no_spend :
    ∀ (srv : Server) (evs : List Event) (w : Wallet),
      ServerConsistent srv → (∀ e ∈ evs, e.isSpendTx = false) → BalanceInv w →
      BalanceInv (runEvents srv w evs) := by
  intro srv evs
  induction evs with
  | nil => intro w _ _ hw; exact hw
  | cons e rest ih =>
    intro w hc hns hw
    have he : e.isSpendTx = false := hns e (List.mem_cons_self _ _)
    have hrest : ∀ e' ∈ rest, e'.isSpendTx = false :=
      fun e' h' => hns e' (List.mem_cons_of_mem _ h')
    show BalanceInv (runEvents srv (stepEvent srv w e) rest)
    apply ih _ hc hrest
    cases e with
    | discover c hs => exact interpretHistory_balanceInv srv hc c hs w hw
    | notify c a en => exact interpretNewHistory_balanceInv srv hc a en c w hw
    | spendTx d amt => simp [Event.isSpendTx] at he

/-- The server of the C1 counterexample: one funded spend-chain address at
derivation index 0 holding a single 1-coin UTXO; its confirmed balance agrees
with its unspent listing, and the fee rate is zero. -/
def cexServer : Server :=
  { getHistory := fun a => if a = addrOf false 0 then [7] else []
    getBalance := fun a => if a = addrOf false 0 then 100000000 else 0
    listUnspent := fun a =>
      if a = addrOf false 0 then [⟨7, 0, a, 100000000, [a]⟩] else []
    estimatefee := fun _ => 0 }

/-- The wallet after gap-limit discovery of the spend chain on `cexServer`. -/
def cexW1 : Wallet := (discoverKeys cexServer false 3 0 initWallet).getD initWallet

/-- The wallet after additionally discovering the change chain. -/
def cexW2 : Wallet := (discoverKeys cexServer true 3 0 cexW1).getD cexW1

/-- The wallet after a successful spend of half a coin from `cexW2`. -/
def cexW3 : Wallet := (spend cexServer cexW2 99 (1/2)).getD cexW2

set_option maxRecDepth 20000 in
/-- C1 counterexample: the state `cexW2` is reached by two discovery runs and
satisfies the balance invariant, the spend of half a coin from it succeeds,
and the resulting state — reachable by discovery and spend operations —
violates `balance = sum of UTXO values`: `spend` subtracts the amount from the
balance but never removes the consumed UTXO, and appends the transaction's
last output on top. -/
theorem spend_breaks_balance_sum :
    (discoverKeys cexServer false 3 0 initWallet).isSome = true ∧
      (discoverKeys cexServer true 3 0 cexW1).isSome = true ∧
      BalanceInv cexW2 ∧
      (spend cexServer cexW2 99 (1/2)).isSome = true ∧
      ¬ BalanceInv cexW3 := by
  refine ⟨?_, ?_, ?_, ?_, ?_⟩ <;> with_unfolding_all decide

/-- The server of the C1 witness: every address reports a confirmed balance of
2 satoshi backed by one 2-satoshi unspent output. -/
def witServer : Server :=
  { getHistory := fun _ => [9]
    getBalance := fun _ => 2
    listUnspent := fun a => [⟨9, 0, a, 2, [a]⟩]
    estimatefee := fun _ => 0 }

/-- The witness event sequence: one discovery window and one live-sync
notification, no spends. -/
def witEvents : List Event :=
  [.discover false [[9]], .notify false (addrOf false 0) (some 9)]

/-- Witness for C1: the amended invariant applied to a concrete consistent
server and a concrete spend-free event sequence. -/
theorem balance_tracks_utxo_sum_no_spend_witness :
    ServerConsistent witServer ∧ (∀ e ∈ witEvents, e.isSpendTx = false) ∧
      BalanceInv initWallet ∧ BalanceInv (runEvents witServer initWallet witEvents) := by
  have hc : ServerConsistent witServer := by
    intro a
    show (2 : ℚ) = ((([⟨9, 0, a, 2, [a]⟩] : List Utxo)).map Utxo.coin_value).sum
    simp
  have hns : ∀ e ∈ witEvents, e.isSpendTx = false := by decide
  have hw : BalanceInv initWallet := by with_unfolding_all decide
  exact ⟨hc, hns, hw, balance_tracks_utxo_sum_no_spend witServer witEvents initWallet hc hns hw⟩

/-! ### Claim C6: fee computation -/

theorem pyInt_eq_floor (q : ℚ) (h : 0 ≤ q) : pyInt q = ⌊q⌋ := by
  rw [pyInt, Rat.floor_def]
  exact Int.tdiv_eq_ediv (Rat.num_nonneg.mpr h) (Int.ofNat_nonneg _)

theorem COIN_pos : (0 : ℚ) < COIN := by norm_num [COIN]

/-- C6: the fee `Wallet.get_fee` computes for a transaction is exactly the
spec's formula — the serialized size in kilobytes times the server's
estimated coin-per-kilobyte rate for a 6-block confirmation target, truncated
to the smallest currency unit (the floor of the satoshi-denominated product);
Python's `int(...)` truncation toward zero coincides with that floor for any
nonnegative fee rate. -/
theorem get_fee_matches_spec :
    ∀ (srv : Server) (t : Tx), 0 ≤ srv.estimatefee 6 →
      get_fee srv t = specFee (txSize t) (srv.estimatefee 6) := by
  intro srv t h
  rw [get_fee, specFee]
  apply pyInt_eq_floor
  have h1 : (0 : ℚ) ≤ (txSize t : ℚ) / 1024 := by positivity
  have h2 : (0 : ℚ) ≤ (txSize t : ℚ) / 1024 * srv.estimatefee 6 := mul_nonneg h1 h
  exact mul_nonneg h2 (le_of_lt COIN_pos)

/-- A concrete single-input, single-output transaction for the fee witness. -/
def feeTx : Tx := ⟨1, [⟨5, 0⟩], [⟨7, [3]⟩], []⟩

/-- A server whose 6-block fee estimate is 1/1024 coin per kilobyte. -/
def feeSrv : Server :=
  { getHistory := fun _ => [], getBalance := fun _ => 0,
    listUnspent := fun _ => [], estimatefee := fun _ => 1 / 1024 }

/-- Witness for C6: the fee equation applied to a concrete transaction and a
concrete nonnegative rate. -/
theorem get_fee_matches_spec_witness :
    0 ≤ feeSrv.estimatefee 6 ∧
      get_fee feeSrv feeTx = specFee (txSize feeTx) (feeSrv.estimatefee 6) :=
  ⟨by norm_num [feeSrv], get_fee_matches_spec feeSrv feeTx (by norm_num [feeSrv])⟩

/-! ### Claim C10: spend only appends -/

/-- The UTXO `Wallet.spend` appends: the last output of the built transaction,
as a spendable (`tx.tx_outs_as_spendable()[-1]`). -/
def lastSpendableOf : Except TxErr Tx → Utxo
  | .ok t => (txOutsAsSpendable t).getLastD defaultUtxo
  | .error _ => defaultUtxo

/-- C10: a successful `spend` removes nothing from the UTXO set — the
post-state's UTXO list is exactly the pre-state's list (including the inputs
the transaction consumed) with a single element appended, namely the last
output of the newly built transaction; the history gains that transaction and
the balance drops by the unscaled amount. -/
theorem spend_appends_last_output :
    ∀ (srv : Server) (w : Wallet) (a : Addr) (amt : ℚ),
      (mktx srv w a amt).isOk = true →
      ∃ t, mktx srv w a amt = .ok t ∧
        spend srv w a amt =
          some { w with
                 history := histExtend w.history a [txHash t]
                 balance := w.balance - amt
                 utxos := w.utxos ++ [(txOutsAsSpendable t).getLastD defaultUtxo] } := by
  intro srv w a amt h
  cases hm : mktx srv w a amt with
  | error e => rw [hm] at h; simp [Except.isOk, Except.toBool] at h
  | ok t => exact ⟨t, rfl, by simp [spend, hm]⟩

set_option maxRecDepth 20000 in
/-- Witness for C10: a successful concrete spend from the discovered wallet
`cexW2`. -/
theorem spend_appends_last_output_witness :
    (mktx cexServer cexW2 99 (1/2)).isOk = true ∧
      ∃ t, mktx cexServer cexW2 99 (1/2) = .ok t ∧
        spend cexServer cexW2 99 (1/2) =
          some { cexW2 with
                 history := histExtend cexW2.history 99 [txHash t]
                 balance := cexW2.balance - 1/2
                 utxos := cexW2.utxos ++ [(txOutsAsSpendable t).getLastD defaultUtxo] } :=
  ⟨by with_unfolding_all decide,
   spend_appends_last_output cexServer cexW2 99 (1/2) (by with_unfolding_all decide)⟩

/-! ### Claim C8: live-sync subscription list -/

/-- A wallet that knows one address on each chain. -/
def bothChainsWallet : Wallet :=
  { balance := 0, spend_indicies := [true], change_indicies := [true],
    utxos := [], history := [] }

/-- C8 counterexample: on a wallet with known addresses on both chains,
`listen_to_addresses` builds its subscription list via
`get_all_known_addresses()` with the default `change=False`, so the known
change-chain address at index 0 is never subscribed. -/
theorem subscribe_misses_change_chain :
    subscribeAddresses bothChainsWallet = [addrOf false 0] ∧
      addrOf true 0 ∉ subscribeAddresses bothChainsWallet := by
  constructor
  · decide
  · decide

/-- C8 (amended): before consuming push notifications, the live-sync loop
subscribes to exactly the known addresses of the spend chain — every spend
chain address, used and unused alike, and nothing else; the change chain is
not subscribed at all. -/
theorem subscribe_list_spec :
    ∀ (w : Wallet) (a : Addr),
      a ∈ subscribeAddresses w ↔ ∃ i, i < w.spend_indicies.length ∧ a = addrOf false i := by
  intro w a
  simp [subscribeAddresses, get_all_known_addresses, Wallet.indicies, List.mem_map,
    List.mem_range, eq_comm]

/-- Witness for C8: membership of the index-0 spend address in the
subscription list of the concrete two-chain wallet. -/
theorem subscribe_list_spec_witness :
    addrOf false 0 ∈ subscribeAddresses bothChainsWallet :=
  (subscribe_list_spec bothChainsWallet (addrOf false 0)).mpr ⟨0, by decide, rfl⟩

/-! ### Claim C9: live-sync index-table update -/

theorem find_range_eq_some (n i : Nat) (p : Nat → Bool) (hi : i < n) (hp : p i = true)
    (hmin : ∀ j, j < i → p j = false) : (List.range n).find? p = some i := by
  have hsplit : List.range n = List.range i ++ i :: ((List.range (n - i - 1)).map (fun x => i + (x + 1))) := by
    have h1 : n = i + (n - i - 1 + 1) := by omega
    rw [h1, List.range_add, List.range_succ_eq_map]
    simp [Function.comp_def]
  rw [hsplit]
  rw [List.find?_append]
  have hnone : (List.range i).find? p = none := by
    rw [List.find?_eq_none]
    intro j hj
    simp only [List.mem_range] at hj
    simp [hmin j hj]
  rw [hnone]
  simp [List.find?_cons, hp]

theorem markUsed_append (c : Bool) (a : Addr) (tbl : List Bool)
    (h : ∀ i, i < tbl.length → addrOf c i ≠ a) : markUsed c a tbl = tbl ++ [true] := by
  rw [markUsed]
  have : (List.range tbl.length).find? (fun i => addrOf c i = a) = none := by
    rw [List.find?_eq_none]
    intro j hj
    simp only [List.mem_range] at hj
    simp [h j hj]
  rw [this]

theorem markUsed_set (c : Bool) (a : Addr) (tbl : List Bool) (i : Nat)
    (hi : i < tbl.length) (ha : addrOf c i = a) : markUsed c a tbl = tbl.set i true := by
  rw [markUsed]
  have : (List.range tbl.length).find? (fun i => addrOf c i = a) = some i := by
    apply find_range_eq_some _ _ _ hi (by simp [ha])
    intro j hj
    have : addrOf c j ≠ a := by
      intro hja
      exact absurd (addrOf_inj c (hja.trans ha.symm)) (Nat.ne_of_lt hj)
    simp [this]
  rw [this]

theorem interpretNewHistory_indicies (srv : Server) (a : Addr) (txid : Nat)
    (c : Bool) (w : Wallet) :
    (interpretNewHistory srv a (some txid) c w).1.indicies c =
      markUsed c a (w.indicies c) := by
  show ((Wallet.setIndicies _ c _).indicies c) = _
  rw [setIndicies_indicies]
  rfl

/-- The spend-chain wallet of the C9 counterexample: a one-entry (unused)
index table. -/
def oneEntryWallet : Wallet :=
  { balance := 0, spend_indicies := [false], change_indicies := [],
    utxos := [], history := [] }

/-- The inert server of the C9 counterexample: empty histories, zero
balances, no unspents. -/
def inertServer : Server :=
  { getHistory := fun _ => [], getBalance := fun _ => 0,
    listUnspent := fun _ => [], estimatefee := fun _ => 0 }

set_option maxRecDepth 20000 in
/-- C9 counterexample: a notification for the address at derivation index 5 of
the spend chain, on a table of length 1, yields the table `[false, true]` — a
single `true` appended at position 1 — not the claimed length-6 table extended
up to index 5 with `false` fill and `true` at index 5. -/
theorem new_history_no_index_extension :
    (interpretNewHistory inertServer (addrOf false 5) (some 42) false oneEntryWallet).1.spend_indicies
        = [false, true] ∧
      (interpretNewHistory inertServer (addrOf false 5) (some 42) false oneEntryWallet).1.spend_indicies
        ≠ [false, false, false, false, false, true] := by
  constructor
  · with_unfolding_all decide
  · with_unfolding_all decide

/-- C9 (amended): on a live-sync notification with non-empty refetched history
for `a`, if `a` is the address of some index inside the chain's table, that
entry is set to true; but if `a`'s derivation index lies beyond the current
table length, the table is *not* extended up to that index — instead a single
`true` is appended at the end of the table (at position equal to the old
length), whatever the address's derivation index is. -/
theorem new_history_index_table_spec :
    ∀ (srv : Server) (c : Bool) (a : Addr) (txid : Nat) (w : Wallet),
      ((∀ i, i < (w.indicies c).length → addrOf c i ≠ a) →
        (interpretNewHistory srv a (some txid) c w).1.indicies c =
          w.indicies c ++ [true]) ∧
      (∀ i, i < (w.indicies c).length → addrOf c i = a →
        (interpretNewHistory srv a (some txid) c w).1.indicies c =
          (w.indicies c).set i true) := by
  intro srv c a txid w
  constructor
  · intro h
    rw [interpretNewHistory_indicies, markUsed_append c a _ h]
  · intro i hi ha
    rw [interpretNewHistory_indicies, markUsed_set c a _ i hi ha]

/-- Witness for C9: both branches of the index-table update applied to
concrete wallets — appending for an out-of-table address, setting in place for
an in-table address. -/
theorem new_history_index_table_spec_witness :
    (interpretNewHistory inertServer (addrOf false 3) (some 42) false oneEntryWallet).1.spend_indicies
        = [false, true] ∧
      (interpretNewHistory inertServer (addrOf false 0) (some 42) false oneEntryWallet).1.spend_indicies
        = [true] :=
  ⟨(new_history_index_table_spec inertServer false (addrOf false 3) 42 oneEntryWallet).1
      (by decide),
   (new_history_index_table_spec inertServer false (addrOf false 0) 42 oneEntryWallet).2
      0 (by decide) (by decide)⟩

/-! ### Claim C7: canonical ordering -/

theorem listNatLT_irrefl : ∀ s : List Nat, listNatLT s s = false := by
  intro s
  induction s with
  | nil => rfl
  | cons x xs ih => simp [listNatLT, ih]

theorem listNatLT_trans :
    ∀ s t u : List Nat, listNatLT s t = true → listNatLT t u = true →
      listNatLT s u = true := by
  intro s
  induction s with
  | nil =>
    intro t u hst htu
    cases t with
    | nil => exact absurd hst (by simp [listNatLT])
    | cons y ys =>
      cases u with
      | nil => exact absurd htu (by simp [listNatLT])
      | cons z zs => rfl
  | cons x xs ih =>
    intro t u hst htu
    cases t with
    | nil => exact absurd hst (by simp [listNatLT])
    | cons y ys =>
      cases u with
      | nil => exact absurd htu (by simp [listNatLT])
      | cons z zs =>
        simp only [listNatLT, Bool.or_eq_true, Bool.and_eq_true, decide_eq_true_eq]
          at hst htu ⊢
        rcases hst with hxy | ⟨hxy, hst'⟩
        · rcases htu with hyz | ⟨hyz, _⟩
          · exact Or.inl (hxy.trans hyz)
          · exact Or.inl (hyz ▸ hxy)
        · rcases htu with hyz | ⟨hyz, htu'⟩
          · exact Or.inl (hxy ▸ hyz)
          · exact Or.inr ⟨hxy.trans hyz, ih ys zs hst' htu'⟩

theorem listNatLT_trichotomy :
    ∀ s t : List Nat, listNatLT s t = true ∨ s = t ∨ listNatLT t s = true := by
  intro s
  induction s with
  | nil =>
    intro t
    cases t with
    | nil => exact Or.inr (Or.inl rfl)
    | cons y ys => exact Or.inl rfl
  | cons x xs ih =>
    intro t
    cases t with
    | nil => exact Or.inr (Or.inr rfl)
    | cons y ys =>
      rcases Nat.lt_trichotomy x y with hxy | hxy | hxy
      · exact Or.inl (by simp [listNatLT, hxy])
      · rcases ih ys with h | h | h
        · exact Or.inl (by simp [listNatLT, hxy, h])
        · exact Or.inr (Or.inl (by rw [hxy, h]))
        · exact Or.inr (Or.inr (by simp [listNatLT, hxy, h]))
      · exact Or.inr (Or.inr (by simp [listNatLT, hxy]))

theorem listNatLT_asymm (s t : List Nat) (h1 : listNatLT s t = true)
    (h2 : listNatLT t s = true) : False := by
  have := listNatLT_trans s t s h1 h2
  rw [listNatLT_irrefl s] at this
  exact Bool.false_ne_true this

theorem lexSpendableLE_total (a b : Utxo) :
    (lexSpendableLE a b || lexSpendableLE b a) = true := by
  simp only [lexSpendableLE, Bool.or_eq_true, Bool.and_eq_true, decide_eq_true_eq]
  omega

theorem lexSpendableLE_trans (a b c : Utxo) (h1 : lexSpendableLE a b = true)
    (h2 : lexSpendableLE b c = true) : lexSpendableLE a c = true := by
  simp only [lexSpendableLE, Bool.or_eq_true, Bool.and_eq_true, decide_eq_true_eq]
    at h1 h2 ⊢
  omega

theorem lexSpendableLE_antisymm (a b : Utxo) (h1 : lexSpendableLE a b = true)
    (h2 : lexSpendableLE b a = true) :
    (a.tx_hash, a.tx_out_index) = (b.tx_hash, b.tx_out_index) := by
  simp only [lexSpendableLE, Bool.or_eq_true, Bool.and_eq_true, decide_eq_true_eq]
    at h1 h2
  have : a.tx_hash = b.tx_hash ∧ a.tx_out_index = b.tx_out_index := by omega
  simp [this.1, this.2]

theorem lexTxOutLE_total (a b : TxOut) :
    (lexTxOutLE a b || lexTxOutLE b a) = true := by
  simp only [lexTxOutLE, Bool.or_eq_true, Bool.and_eq_true, decide_eq_true_eq]
  rcases listNatLT_trichotomy a.script b.script with h | h | h
  · exact Or.inl (Or.inl h)
  · rcases le_total a.coin_value b.coin_value with hv | hv
    · exact Or.inl (Or.inr ⟨h, hv⟩)
    · exact Or.inr (Or.inr ⟨h.symm, hv⟩)
  · exact Or.inr (Or.inl h)

theorem lexTxOutLE_trans (a b c : TxOut) (h1 : lexTxOutLE a b = true)
    (h2 : lexTxOutLE b c = true) : lexTxOutLE a c = true := by
  simp only [lexTxOutLE, Bool.or_eq_true, Bool.and_eq_true, decide_eq_true_eq]
    at h1 h2 ⊢
  rcases h1 with h1 | ⟨h1, hv1⟩
  · rcases h2 with h2 | ⟨h2, _⟩
    · exact Or.inl (listNatLT_trans _ _ _ h1 h2)
    · exact Or.inl (h2 ▸ h1)
  · rcases h2 with h2 | ⟨h2, hv2⟩
    · exact Or.inl (h1 ▸ h2)
    · exact Or.inr ⟨h1.trans h2, hv1.trans hv2⟩

theorem lexTxOutLE_antisymm (a b : TxOut) (h1 : lexTxOutLE a b = true)
    (h2 : lexTxOutLE b a = true) : a = b := by
  simp only [lexTxOutLE, Bool.or_eq_true, Bool.and_eq_true, decide_eq_true_eq]
    at h1 h2
  rcases h1 with h1 | ⟨h1, hv1⟩
  · rcases h2 with h2 | ⟨h2, _⟩
    · exact (listNatLT_asymm _ _ h1 h2).elim
    · rw [h2] at h1; exact absurd h1 (by simp [listNatLT_irrefl])
  · rcases h2 with h2 | ⟨h2, hv2⟩
    · rw [h1] at h2; exact absurd h2 (by simp [listNatLT_irrefl])
    · cases a; cases b
      simp only [TxOut.mk.injEq]
      simp only at h1 hv1 hv2
      exact ⟨le_antisymm hv1 hv2, h1⟩

/-- C7: the canonical comparisons applied to the selected inputs
(`LexSpendable`: lexicographic on the serialized input reference) and the two
outputs (`LexTxOut`: lexicographic on script and value) are total and
transitive, antisymmetric on their comparison keys (the whole output, and the
`(tx_hash, tx_out_index)` reference of an input), sorting with them is
idempotent, and sorting an already-sorted list leaves it unchanged — ties
compare equal both ways and the stable sort resolves them identically on
every run. -/
theorem canonical_ordering_total_idempotent :
    (∀ a b : Utxo, (lexSpendableLE a b || lexSpendableLE b a) = true) ∧
      (∀ a b c : Utxo, lexSpendableLE a b = true → lexSpendableLE b c = true →
        lexSpendableLE a c = true) ∧
      (∀ a b : Utxo, lexSpendableLE a b = true → lexSpendableLE b a = true →
        (a.tx_hash, a.tx_out_index) = (b.tx_hash, b.tx_out_index)) ∧
      (∀ a b : TxOut, (lexTxOutLE a b || lexTxOutLE b a) = true) ∧
      (∀ a b c : TxOut, lexTxOutLE a b = true → lexTxOutLE b c = true →
        lexTxOutLE a c = true) ∧
      (∀ a b : TxOut, lexTxOutLE a b = true → lexTxOutLE b a = true → a = b) ∧
      (∀ l : List Utxo,
        (l.mergeSort lexSpendableLE).mergeSort lexSpendableLE =
          l.mergeSort lexSpendableLE) ∧
      (∀ l : List TxOut,
        (l.mergeSort lexTxOutLE).mergeSort lexTxOutLE = l.mergeSort lexTxOutLE) ∧
      (∀ l : List Utxo, List.Pairwise (fun a b => lexSpendableLE a b = true) l →
        l.mergeSort lexSpendableLE = l) ∧
      (∀ l : List TxOut, List.Pairwise (fun a b => lexTxOutLE a b = true) l →
        l.mergeSort lexTxOutLE = l) :=
  ⟨lexSpendableLE_total, lexSpendableLE_trans, lexSpendableLE_antisymm,
   lexTxOutLE_total, lexTxOutLE_trans, lexTxOutLE_antisymm,
   fun l => List.mergeSort_of_sorted
     (List.sorted_mergeSort (fun a b c => lexSpendableLE_trans a b c)
       lexSpendableLE_total l),
   fun l => List.mergeSort_of_sorted
     (List.sorted_mergeSort (fun a b c => lexTxOutLE_trans a b c) lexTxOutLE_total l),
   fun _ => List.mergeSort_of_sorted,
   fun _ => List.mergeSort_of_sorted⟩

/-- Witness for C7: the transitivity components and the sorted-no-op
components applied to concrete inputs and outputs. -/
theorem canonical_ordering_total_idempotent_witness :
    lexSpendableLE cu3 cu2 = true ∧
      lexTxOutLE ⟨1, [0]⟩ ⟨3, [2]⟩ = true ∧
      [cu3, cu5].mergeSort lexSpendableLE = [cu3, cu5] ∧
      ([⟨1, [0]⟩, ⟨2, [1]⟩] : List TxOut).mergeSort lexTxOutLE = [⟨1, [0]⟩, ⟨2, [1]⟩] :=
  ⟨canonical_ordering_total_idempotent.2.1 cu3 cu5 cu2 (by decide) (by decide),
   canonical_ordering_total_idempotent.2.2.2.2.1 ⟨1, [0]⟩ ⟨2, [1]⟩ ⟨3, [2]⟩
     (by with_unfolding_all decide) (by with_unfolding_all decide),
   canonical_ordering_total_idempotent.2.2.2.2.2.2.2.2.1 [cu3, cu5]
     (by with_unfolding_all decide),
   canonical_ordering_total_idempotent.2.2.2.2.2.2.2.2.2 [⟨1, [0]⟩, ⟨2, [1]⟩]
     (by with_unfolding_all decide)⟩

/-! ### Claim C5: InsufficientFunds conditions -/

theorem pyInt_nonneg (q : ℚ) (h : 0 ≤ q) : 0 ≤ pyInt q := by
  rw [pyInt_eq_floor q h]
  exact Int.floor_nonneg.mpr h

theorem get_fee_nonneg (srv : Server) (t : Tx) (h : 0 ≤ srv.estimatefee 6) :
    0 ≤ get_fee srv t := by
  apply pyInt_nonneg
  have h1 : (0 : ℚ) ≤ (txSize t : ℚ) / 1024 := by positivity
  exact mul_nonneg (mul_nonneg h1 h) (le_of_lt COIN_pos)

theorem sum_map_mergeSort {α : Type} (f : α → ℚ) (le : α → α → Bool) (l : List α) :
    ((l.mergeSort le).map f).sum = (l.map f).sum :=
  List.Perm.sum_eq (List.Perm.map f (List.mergeSort_perm l le))

theorem builtTx_unspents_sum (sp : List Utxo) (d c : Addr) (amt : ℚ) :
    ((builtTx sp d c amt).unspents.map Utxo.coin_value).sum =
      (sp.map Utxo.coin_value).sum := by
  show (((sp.mergeSort lexSpendableLE).map Utxo.coin_value)).sum = _
  exact sum_map_mergeSort Utxo.coin_value lexSpendableLE sp

theorem builtTx_outs_sum (sp : List Utxo) (d c : Addr) (amt : ℚ) :
    ((builtTx sp d c amt).txs_out.map TxOut.coin_value).sum = amt := by
  show ((([TxOut.mk amt (scriptOf d), TxOut.mk 0 (scriptOf c)]).mergeSort
    lexTxOutLE).map TxOut.coin_value).sum = amt
  rw [sum_map_mergeSort]
  simp

theorem distribute_error_iff (t : Tx) (fee : Int) :
    distributeFromSplitPool t fee = .error .insufficientFunds ↔
      (t.unspents.map Utxo.coin_value).sum -
        ((t.txs_out.map TxOut.coin_value).sum + fee) < 0 := by
  rw [distributeFromSplitPool]
  split
  · simp_all
  · simp_all

theorem distribute_error_elim (t : Tx) (fee : Int) (e : TxErr)
    (h : distributeFromSplitPool t fee = .error e) : e = .insufficientFunds := by
  rw [distributeFromSplitPool] at h
  split at h
  · injection h with h'
    exact h'.symm
  · simp at h

/-- C5: with a change key available (defaulting on that key is a separate
`AttributeError`, not `InsufficientFunds`) and a nonnegative fee rate and
UTXO values, transaction building fails with `InsufficientFunds` exactly when
the full UTXO set sums to less than the scaled requested amount (the set is
exhausted before the selection can reach the target), or when subtracting the
fee from the selection surplus would leave the change output's value negative;
in either case the failure is raised at fee distribution, before `sign_tx` is
reached on the success path. -/
theorem mktx_insufficient_funds_iff :
    ∀ (srv : Server) (w : Wallet) (dest : Addr) (amt : ℚ) (ck : Bool × Nat),
      get_next_unused_key w true = some ck →
      0 ≤ srv.estimatefee 6 →
      (∀ u ∈ w.utxos, 0 ≤ u.coin_value) →
      (mktx srv w dest amt = .error .insufficientFunds ↔
        ((w.utxos.map Utxo.coin_value).sum < amt * COIN ∨
          (selectCoins w.utxos (amt * COIN)).2 - amt * COIN -
            (get_fee srv (builtTx (selectCoins w.utxos (amt * COIN)).1 dest
              (addrOf ck.1 ck.2) (amt * COIN)) : ℚ) < 0)) := by
  intro srv w dest amt ck hck hr hnn
  have hmktx : mktx srv w dest amt =
      (match distributeFromSplitPool
          (builtTx (selectCoins w.utxos (amt * COIN)).1 dest (addrOf ck.1 ck.2)
            (amt * COIN))
          (get_fee srv (builtTx (selectCoins w.utxos (amt * COIN)).1 dest
            (addrOf ck.1 ck.2) (amt * COIN))) with
       | .error e => .error e
       | .ok t1 =>
         .ok (signTx t1
           (wifsFor w ((selectCoins w.utxos (amt * COIN)).1.map Utxo.address)))) := by
    rw [mktx, hck]
  set t := builtTx (selectCoins w.utxos (amt * COIN)).1 dest (addrOf ck.1 ck.2)
    (amt * COIN) with ht
  set fee := get_fee srv t with hfeedef
  have hcond : (distributeFromSplitPool t fee = .error .insufficientFunds) ↔
      (selectCoins w.utxos (amt * COIN)).2 - (amt * COIN + (fee : ℚ)) < 0 := by
    rw [distribute_error_iff, ht, builtTx_unspents_sum, builtTx_outs_sum,
      ← selectCoins_sum]
  have herr : (mktx srv w dest amt = .error .insufficientFunds) ↔
      (selectCoins w.utxos (amt * COIN)).2 - (amt * COIN + (fee : ℚ)) < 0 := by
    rw [hmktx]
    cases hd : distributeFromSplitPool t fee with
    | error e =>
      have he : e = .insufficientFunds := distribute_error_elim t fee e hd
      subst he
      exact iff_of_true rfl (hcond.mp hd)
    | ok t1 =>
      simp only []
      constructor
      · intro hcontr
        exact absurd hcontr (by simp)
      · intro hc
        rw [hcond.mpr hc] at hd
        exact absurd hd (by simp)
  rw [herr]
  have hfeeNN : (0 : ℚ) ≤ (fee : ℚ) := by
    exact_mod_cast get_fee_nonneg srv t hr
  constructor
  · intro h
    right
    linarith
  · intro h
    rcases h with h | h
    · have hb := selectCoins_bounded w.utxos (amt * COIN) hnn
      linarith
    · linarith

/-- The wallet of the C5 witness: one unused change key and a single
10-satoshi UTXO. -/
def fundedWallet : Wallet :=
  { balance := 0, spend_indicies := [true], change_indicies := [false],
    utxos := [⟨3, 0, 0, 10, [0]⟩], history := [] }

/-- Witness for C5: the failure condition applied to a concrete wallet,
change key, nonnegative fee rate and nonnegative UTXO values. -/
theorem mktx_insufficient_funds_iff_witness :
    get_next_unused_key fundedWallet true = some (get_key true 0) ∧
      0 ≤ inertServer.estimatefee 6 ∧
      (∀ u ∈ fundedWallet.utxos, 0 ≤ u.coin_value) ∧
      (mktx inertServer fundedWallet 99 1 = .error .insufficientFunds ↔
        ((fundedWallet.utxos.map Utxo.coin_value).sum < 1 * COIN ∨
          (selectCoins fundedWallet.utxos (1 * COIN)).2 - 1 * COIN -
            (get_fee inertServer (builtTx (selectCoins fundedWallet.utxos (1 * COIN)).1 99
              (addrOf true 0) (1 * COIN)) : ℚ) < 0)) :=
  ⟨by decide, by decide, by decide,
   mktx_insufficient_funds_iff inertServer fundedWallet 99 1 (get_key true 0)
     (by decide) (by decide) (by decide)⟩

end Nowallet
